import Mathlib

/-!
Shallow embedding of the AoE2DE "Reduced UI Animations" mod generator
(src/reduced-ui-animations-mod-generator/src/main.rs).

The embedding follows the Rust source:
* `XmlNode` / `XmlForest` model `xml_dom::RefNode` trees (elements with a
  tag, an attribute map and a child list; text nodes; comment nodes).
  The attribute storage of `xml_dom` is a `HashMap`; it is modelled as an
  association list. The list order stands for the iteration order of that
  `HashMap`, which the library does not fix (see the TODO comment on
  `xml_to_string` in the source).
* `patch_children` models the loop of `patch_xaml_recursively`, which
  walks the child list of a node, replaces `local:Age2BlurEffect` and
  `local:Age2SwipeEffect` elements by placeholder comments, rewrites the
  `Rectangle` with `x:Name="Fade"`, and recurses into remaining elements.
* `read_xml` models the XML parsing step (`xml_dom::parser::read_xml`)
  on the fragment of XML this tool consumes; `decode_with_bom_removal`
  models `encoding_rs::UTF_8.decode_with_bom_removal` (WHATWG UTF-8
  decoding with U+FFFD replacement for malformed sequences, plus BOM
  stripping; the second component is the `had_errors` flag).
* The virtual directory tree (Rust `Directory` over `BTreeMap`) is
  modelled as a sorted association list with the insert-replaces
  semantics of `BTreeMap::insert` (`mapInsert`).
-/

set_option maxHeartbeats 1000000
set_option maxRecDepth 100000

/-- Rust constant `GENERATED_MOD_NAME`. -/
def GENERATED_MOD_NAME : String := "Reduced UI Animations"

mutual

/-- DOM node model: `xml_dom` elements carry a (qualified) tag name, an
attribute map and a child list; text and comment nodes carry a string. -/
inductive XmlNode where
  | element (tag : String) (attrs : List (String × String)) (children : XmlForest)
  | text (s : String)
  | comment (s : String)

/-- A child list of DOM nodes. -/
inductive XmlForest where
  | nil
  | cons (head : XmlNode) (tail : XmlForest)

end

mutual

def decEqXmlNode : (a b : XmlNode) → Decidable (a = b)
  | XmlNode.element t1 a1 c1, XmlNode.element t2 a2 c2 =>
    match decEq t1 t2, decEq a1 a2, decEqXmlForest c1 c2 with
    | isTrue h1, isTrue h2, isTrue h3 => isTrue (by rw [h1, h2, h3])
    | isFalse h1, _, _ => isFalse (by intro h; cases h; exact h1 rfl)
    | _, isFalse h2, _ => isFalse (by intro h; cases h; exact h2 rfl)
    | _, _, isFalse h3 => isFalse (by intro h; cases h; exact h3 rfl)
  | XmlNode.element _ _ _, XmlNode.text _ => isFalse (by intro h; cases h)
  | XmlNode.element _ _ _, XmlNode.comment _ => isFalse (by intro h; cases h)
  | XmlNode.text _, XmlNode.element _ _ _ => isFalse (by intro h; cases h)
  | XmlNode.text s1, XmlNode.text s2 =>
    match decEq s1 s2 with
    | isTrue h => isTrue (by rw [h])
    | isFalse h => isFalse (by intro hh; cases hh; exact h rfl)
  | XmlNode.text _, XmlNode.comment _ => isFalse (by intro h; cases h)
  | XmlNode.comment _, XmlNode.element _ _ _ => isFalse (by intro h; cases h)
  | XmlNode.comment _, XmlNode.text _ => isFalse (by intro h; cases h)
  | XmlNode.comment s1, XmlNode.comment s2 =>
    match decEq s1 s2 with
    | isTrue h => isTrue (by rw [h])
    | isFalse h => isFalse (by intro hh; cases hh; exact h rfl)

def decEqXmlForest : (a b : XmlForest) → Decidable (a = b)
  | XmlForest.nil, XmlForest.nil => isTrue rfl
  | XmlForest.nil, XmlForest.cons _ _ => isFalse (by intro h; cases h)
  | XmlForest.cons _ _, XmlForest.nil => isFalse (by intro h; cases h)
  | XmlForest.cons h1 t1, XmlForest.cons h2 t2 =>
    match decEqXmlNode h1 h2, decEqXmlForest t1 t2 with
    | isTrue hh, isTrue ht => isTrue (by rw [hh, ht])
    | isFalse hh, _ => isFalse (by intro h; cases h; exact hh rfl)
    | _, isFalse ht => isFalse (by intro h; cases h; exact ht rfl)

end

instance : DecidableEq XmlNode := decEqXmlNode

instance : DecidableEq XmlForest := decEqXmlForest

/-- Convenience conversion used to write concrete documents. -/
def XmlForest.ofList : List XmlNode → XmlForest
  | [] => XmlForest.nil
  | n :: rest => XmlForest.cons n (XmlForest.ofList rest)

/-- DOM `node_name()`: the tag for elements, `#text` / `#comment` for the
other node kinds we model. -/
def nodeName : XmlNode → String
  | XmlNode.element tag _ _ => tag
  | XmlNode.text _ => "#text"
  | XmlNode.comment _ => "#comment"

/-- Attribute lookup (a `HashMap` lookup in `xml_dom`): at most one
binding per key is ever stored, the first binding wins here. -/
def lookupA : List (String × String) → String → Option String
  | [], _ => none
  | (k0, v0) :: rest, k => if k0 = k then some v0 else lookupA rest k

/-- Attribute update (`set_attribute`): replace the existing binding for
the key, or add a binding if the key is absent. -/
def setAttrList : List (String × String) → String → String → List (String × String)
  | [], k, v => [(k, v)]
  | (k0, v0) :: rest, k, v =>
      if k0 = k then (k, v) :: rest else (k0, v0) :: setAttrList rest k v

/-- DOM `get_attribute` (returns `None` on non-element nodes). -/
def get_attribute : XmlNode → String → Option String
  | XmlNode.element _ attrs _, k => lookupA attrs k
  | _, _ => none

/-- Rust `is_fade_brush_rectangle`: tag is `Rectangle` and the `x:Name`
attribute equals `Fade`. -/
def is_fade_brush_rectangle (node : XmlNode) : Bool :=
  if nodeName node ≠ "Rectangle" then false
  else
    match get_attribute node "x:Name" with
    | some name => name = "Fade"
    | none => false

/-- Rust `PatchStatus`. -/
inductive PatchStatus where
  | Unchanged
  | Changed
deriving DecidableEq, Repr

/-- The monotonic accumulation of `PatchStatus` performed by the loop in
`patch_xaml_recursively` (`result = Changed` once any rule fires). -/
def combine : PatchStatus → PatchStatus → PatchStatus
  | PatchStatus.Unchanged, s => s
  | PatchStatus.Changed, _ => PatchStatus.Changed

/-- The text of the comment placed where a removed element used to be
(Rust `format!("The mod {} replaced an element here: {}", ...)`). -/
def placeholderComment (name : String) : String :=
  "The mod " ++ GENERATED_MOD_NAME ++ " replaced an element here: " ++ name

/-- Does a node name match one of the two removal rules? (the comparison
`(name == blur_effect) || (name == swipe_effect)` in the Rust loop). -/
def removal_name (name : String) : Bool :=
  name = "local:Age2BlurEffect" || name = "local:Age2SwipeEffect"

/-- The five `set_attribute` calls performed on the fade-brush rectangle,
in source order: `Canvas.Left`, `Canvas.Top`, `Fill`, `Height`, `Width`. -/
def fade_brush_attributes (attrs : List (String × String)) : List (String × String) :=
  setAttrList (setAttrList (setAttrList (setAttrList (setAttrList
    attrs "Canvas.Left" "-1") "Canvas.Top" "-1") "Fill" "Green") "Height" "1") "Width" "1"

/-- The loop of Rust `patch_xaml_recursively` over a child list: a child
whose name matches a removal rule is replaced by a placeholder comment
and not recursed into (`continue`); a fade-brush rectangle child has its
five attributes overwritten and is then recursed into; every other
element child is recursed into unmodified; text and comment children
pass through (recursing into them visits no children). -/
def patch_children : XmlForest → XmlForest × PatchStatus
  | XmlForest.nil => (XmlForest.nil, PatchStatus.Unchanged)
  | XmlForest.cons child rest =>
    if removal_name (nodeName child) then
      (XmlForest.cons (XmlNode.comment (placeholderComment (nodeName child)))
         (patch_children rest).1,
       PatchStatus.Changed)
    else
      match child with
      | XmlNode.element t a ch =>
          (XmlForest.cons
              (XmlNode.element t
                (if is_fade_brush_rectangle (XmlNode.element t a ch) then
                  fade_brush_attributes a
                 else a)
                (patch_children ch).1)
              (patch_children rest).1,
           combine
             (combine
               (if is_fade_brush_rectangle (XmlNode.element t a ch) then PatchStatus.Changed
                else PatchStatus.Unchanged)
               (patch_children ch).2)
             (patch_children rest).2)
      | other => (XmlForest.cons other (patch_children rest).1, (patch_children rest).2)

/-- Rust `patch_xaml_recursively` on one node: patch its child list (a
node's own tag and attributes are only ever modified by its parent's
loop iteration). -/
def patch_xaml_recursively (node : XmlNode) : XmlNode × PatchStatus :=
  match node with
  | XmlNode.element t a ch =>
      (XmlNode.element t a (patch_children ch).1, (patch_children ch).2)
  | other => (other, PatchStatus.Unchanged)

/-- Serialization of one attribute map entry list, in storage order
(`Display` of an `xml_dom` element writes ` name="value"` per stored
attribute, in the iteration order of the attribute `HashMap`). -/
def attrsToString : List (String × String) → String
  | [] => ""
  | (k, v) :: rest => " " ++ k ++ "=\"" ++ v ++ "\"" ++ attrsToString rest

/-- Serialization of a child list (`Display` of `xml_dom` nodes):
elements print as `<tag attrs>children</tag>`, text verbatim, comments
as `<!--text-->`. -/
def forestToString : XmlForest → String
  | XmlForest.nil => ""
  | XmlForest.cons (XmlNode.element t a ch) rest =>
      "<" ++ t ++ attrsToString a ++ ">" ++ forestToString ch ++ "</" ++ t ++ ">"
        ++ forestToString rest
  | XmlForest.cons (XmlNode.text s) rest => s ++ forestToString rest
  | XmlForest.cons (XmlNode.comment s) rest => "<!--" ++ s ++ "-->" ++ forestToString rest

/-- The parsed document: `read_xml` returns the document node, whose
children the engine patches. -/
structure XmlDocument where
  children : XmlForest
deriving DecidableEq

/-- Rust `xml_to_string`: `Display` of the document root node. -/
def xml_to_string (root : XmlDocument) : String :=
  forestToString root.children

def isWs (c : Char) : Bool := c == ' ' || c == '\t' || c == '\n' || c == '\r'

def isNameChar (c : Char) : Bool :=
  !(isWs c) && c != '>' && c != '/' && c != '=' && c != '<' && c != '"' && c != '?' && c != '!'

def skipWs (cs : List Char) : List Char := cs.dropWhile isWs

def takeName (cs : List Char) : String × List Char :=
  ((cs.takeWhile isNameChar).asString, cs.dropWhile isNameChar)

/-- Attribute list parsing: `name="value"` pairs separated by
whitespace, until `/` or `>` is reached. -/
def parseAttrs : Nat → List Char → Option (List (String × String) × List Char)
  | 0, _ => none
  | fuel + 1, cs =>
    match skipWs cs with
    | [] => none
    | c :: cs1 =>
      if c == '>' || c == '/' then some ([], c :: cs1)
      else
        match takeName (c :: cs1) with
        | (name, cs2) =>
          if name.isEmpty then none
          else
            match skipWs cs2 with
            | '=' :: cs3 =>
              match skipWs cs3 with
              | '"' :: cs4 =>
                let value := (cs4.takeWhile (fun ch => ch != '"')).asString
                match cs4.dropWhile (fun ch => ch != '"') with
                | '"' :: cs5 =>
                  match parseAttrs fuel cs5 with
                  | some (attrs, cs6) => some ((name, value) :: attrs, cs6)
                  | none => none
                | _ => none
              | _ => none
            | _ => none

/-- Scan a comment body up to the closing `-->`. -/
def splitTilCommentEnd : List Char → Option (List Char × List Char)
  | [] => none
  | '-' :: '-' :: '>' :: rest => some ([], rest)
  | c :: rest =>
    match splitTilCommentEnd rest with
    | none => none
    | some (txt, rest2) => some (c :: txt, rest2)

mutual

/-- Element parsing (cursor just after the opening `<`): tag name,
attributes, then either a self-closing `/>` or `>` children and a
matching close tag. -/
def parseElement : Nat → List Char → Option (XmlNode × List Char)
  | 0, _ => none
  | fuel + 1, cs =>
    match takeName cs with
    | (name, cs1) =>
      if name.isEmpty then none
      else
        match parseAttrs (fuel + 1) cs1 with
        | none => none
        | some (attrs, cs2) =>
          match cs2 with
          | '/' :: '>' :: cs3 => some (XmlNode.element name attrs XmlForest.nil, cs3)
          | '>' :: cs3 =>
            match parseContent fuel cs3 with
            | none => none
            | some (children, cs4) =>
              match cs4 with
              | '<' :: '/' :: cs5 =>
                match takeName cs5 with
                | (cname, cs6) =>
                  if cname == name then
                    match skipWs cs6 with
                    | '>' :: cs7 => some (XmlNode.element name attrs children, cs7)
                    | _ => none
                  else none
              | _ => none
          | _ => none

/-- Content parsing inside an element, up to (excluding) the closing
tag: child elements, comments, and text runs. Whitespace-only text runs
produce no node (matching the observed behavior of the Rust tool: the
expected outputs in the source's tests contain none of the inter-element
whitespace of their inputs). -/
def parseContent : Nat → List Char → Option (XmlForest × List Char)
  | 0, _ => none
  | fuel + 1, cs =>
    match cs with
    | [] => none
    | '<' :: '/' :: rest => some (XmlForest.nil, '<' :: '/' :: rest)
    | '<' :: '!' :: '-' :: '-' :: rest =>
      match splitTilCommentEnd rest with
      | none => none
      | some (txt, rest2) =>
        match parseContent fuel rest2 with
        | none => none
        | some (nodes, rest3) =>
          some (XmlForest.cons (XmlNode.comment txt.asString) nodes, rest3)
    | '<' :: rest =>
      match parseElement fuel rest with
      | none => none
      | some (node, rest2) =>
        match parseContent fuel rest2 with
        | none => none
        | some (nodes, rest3) => some (XmlForest.cons node nodes, rest3)
    | c :: rest =>
      let txt := c :: rest.takeWhile (fun ch => ch != '<')
      let after := rest.dropWhile (fun ch => ch != '<')
      match parseContent fuel after with
      | none => none
      | some (nodes, rest3) =>
        if txt.all isWs then some (nodes, rest3)
        else some (XmlForest.cons (XmlNode.text txt.asString) nodes, rest3)

end

/-- Skip an XML declaration `<?xml ... ?>` (cursor just after `<?`). -/
def skipPrologueRest : List Char → List Char
  | '?' :: '>' :: rest => rest
  | _ :: rest => skipPrologueRest rest
  | [] => []

/-- Model of `xml_dom::parser::read_xml` on the XML fragment this tool
consumes: optional leading whitespace and XML declaration, one root
element, optional trailing whitespace. `none` models the parse failure
that the Rust code turns into a panic (`expect("Tried to parse XML")`). -/
def read_xml (s : String) : Option XmlDocument :=
  let cs := skipWs s.data
  let cs1 :=
    match cs with
    | '<' :: '?' :: rest => skipWs (skipPrologueRest rest)
    | other => other
  match cs1 with
  | '<' :: rest =>
    match parseElement (s.length + 1) rest with
    | some (root, rest2) =>
      if (skipWs rest2).isEmpty then some ⟨XmlForest.cons root XmlForest.nil⟩ else none
    | none => none
  | _ => none

/-- U+FFFD REPLACEMENT CHARACTER. -/
def replacementChar : Char := Char.ofNat 0xFFFD

/-- WHATWG UTF-8 decoding with replacement, as performed by
`encoding_rs::UTF_8.decode*`: malformed sequences become one U+FFFD per
maximal subpart and set the error flag; decoding never fails. The `fuel`
argument only bounds the recursion; one byte is consumed per step, so
any fuel of at least the list length gives the decoding. -/
def utf8DecodeAux : Nat → List Nat → List Char × Bool
  | 0, _ => ([], false)
  | _, [] => ([], false)
  | fuel + 1, b :: rest =>
    if b < 0x80 then
      let r := utf8DecodeAux fuel rest
      (Char.ofNat b :: r.1, r.2)
    else if b < 0xC2 then
      let r := utf8DecodeAux fuel rest
      (replacementChar :: r.1, true)
    else if b < 0xE0 then
      match rest with
      | [] => ([replacementChar], true)
      | c1 :: rest1 =>
        if 0x80 ≤ c1 ∧ c1 ≤ 0xBF then
          let r := utf8DecodeAux fuel rest1
          (Char.ofNat ((b - 0xC0) * 64 + (c1 - 0x80)) :: r.1, r.2)
        else
          let r := utf8DecodeAux fuel rest
          (replacementChar :: r.1, true)
    else if b < 0xF0 then
      match rest with
      | [] => ([replacementChar], true)
      | c1 :: rest1 =>
        if (if b = 0xE0 then 0xA0 else 0x80) ≤ c1 ∧ c1 ≤ (if b = 0xED then 0x9F else 0xBF) then
          match rest1 with
          | [] => ([replacementChar, replacementChar], true)
          | c2 :: rest2 =>
            if 0x80 ≤ c2 ∧ c2 ≤ 0xBF then
              let r := utf8DecodeAux fuel rest2
              (Char.ofNat ((b - 0xE0) * 4096 + (c1 - 0x80) * 64 + (c2 - 0x80)) :: r.1, r.2)
            else
              let r := utf8DecodeAux fuel rest1
              (replacementChar :: r.1, true)
        else
          let r := utf8DecodeAux fuel rest
          (replacementChar :: r.1, true)
    else if b < 0xF5 then
      match rest with
      | [] => ([replacementChar], true)
      | c1 :: rest1 =>
        if (if b = 0xF0 then 0x90 else 0x80) ≤ c1 ∧ c1 ≤ (if b = 0xF4 then 0x8F else 0xBF) then
          match rest1 with
          | [] => ([replacementChar, replacementChar], true)
          | c2 :: rest2 =>
            if 0x80 ≤ c2 ∧ c2 ≤ 0xBF then
              match rest2 with
              | [] => ([replacementChar, replacementChar, replacementChar], true)
              | c3 :: rest3 =>
                if 0x80 ≤ c3 ∧ c3 ≤ 0xBF then
                  let r := utf8DecodeAux fuel rest3
                  (Char.ofNat
                      ((b - 0xF0) * 262144 + (c1 - 0x80) * 4096 + (c2 - 0x80) * 64 + (c3 - 0x80))
                    :: r.1, r.2)
                else
                  let r := utf8DecodeAux fuel rest2
                  (replacementChar :: r.1, true)
            else
              let r := utf8DecodeAux fuel rest1
              (replacementChar :: r.1, true)
        else
          let r := utf8DecodeAux fuel rest
          (replacementChar :: r.1, true)
    else
      let r := utf8DecodeAux fuel rest
      (replacementChar :: r.1, true)

/-- UTF-8 decoding with replacement of a whole byte list. -/
def utf8DecodeLoop (bytes : List Nat) : List Char × Bool :=
  utf8DecodeAux (bytes.length + 1) bytes

/-- `encoding_rs::UTF_8.decode_with_bom_removal`: strip a UTF-8 byte
order mark if present, then decode with replacement. The Rust caller
(`modify_xaml_file`) uses only component `.0` and drops the error
flag `.1`. -/
def decode_with_bom_removal (bytes : List Nat) : String × Bool :=
  let stripped :=
    match bytes with
    | 0xEF :: 0xBB :: 0xBF :: rest => rest
    | other => other
  let r := utf8DecodeLoop stripped
  (r.1.asString, r.2)

/-- UTF-8 encoding of one scalar value. -/
def utf8EncodeChar (c : Nat) : List Nat :=
  if c < 0x80 then [c]
  else if c < 0x800 then [0xC0 + c / 64, 0x80 + c % 64]
  else if c < 0x10000 then [0xE0 + c / 4096, 0x80 + (c / 64) % 64, 0x80 + c % 64]
  else [0xF0 + c / 262144, 0x80 + (c / 4096) % 64, 0x80 + (c / 64) % 64, 0x80 + c % 64]

/-- UTF-8 encoding of a string (Rust `String` → `Vec<u8>`). -/
def utf8Encode (s : String) : List Nat :=
  s.data.foldr (fun c acc => utf8EncodeChar c.toNat ++ acc) []

def decEqExcept {e a : Type} [DecidableEq e] [DecidableEq a] :
    (x y : Except e a) → Decidable (x = y)
  | Except.error e1, Except.error e2 =>
    match decEq e1 e2 with
    | isTrue h => isTrue (by rw [h])
    | isFalse h => isFalse (by intro hh; cases hh; exact h rfl)
  | Except.error _, Except.ok _ => isFalse (by intro h; cases h)
  | Except.ok _, Except.error _ => isFalse (by intro h; cases h)
  | Except.ok a1, Except.ok a2 =>
    match decEq a1 a2 with
    | isTrue h => isTrue (by rw [h])
    | isFalse h => isFalse (by intro hh; cases hh; exact h rfl)

instance {e a : Type} [DecidableEq e] [DecidableEq a] : DecidableEq (Except e a) := decEqExcept

/-- Rust `patch_xaml`: parse (a parse failure panics and aborts the
run, modelled as `Except.error`), patch the document node's children,
and serialize only when something changed. -/
def patch_xaml (original_content : String) : Except Unit (Option String) :=
  match read_xml original_content with
  | none => Except.error ()
  | some root =>
    match patch_children root.children with
    | (_, PatchStatus.Unchanged) => Except.ok none
    | (patched, PatchStatus.Changed) => Except.ok (some (xml_to_string ⟨patched⟩))

/-- Rust `modify_xaml_file`: decode with BOM removal (keeping only the
decoded string and ignoring the error flag), patch, re-encode. -/
def modify_xaml_file (original_content : List Nat) : Except Unit (Option (List Nat)) :=
  let original_content_string := (decode_with_bom_removal original_content).1
  match patch_xaml original_content_string with
  | Except.error e => Except.error e
  | Except.ok modified => Except.ok (modified.map (fun value => utf8Encode value))

/-- Rust `FileEntry`: a file name and its raw bytes. -/
structure FileEntry where
  name : String
  content : List Nat
deriving DecidableEq, Repr

/-- Rust `DirectoryEntry` / `Directory`: the virtual directory tree. A
directory (`BTreeMap<String, DirectoryEntry>`) is modelled as its sorted
entry list. -/
inductive DirectoryEntry where
  | file (content : List Nat)
  | subdirectory (entries : List (String × DirectoryEntry))

/-- `BTreeMap` lookup on the sorted-entry-list model (keys are unique,
the first match wins). -/
def lookupS {α : Type} : List (String × α) → String → Option α
  | [], _ => none
  | (k0, v0) :: rest, k => if k0 = k then some v0 else lookupS rest k

/-- Lexicographic (strict) order on character lists, the `Ord` used by
Rust `BTreeMap<String, _>` (identical to byte order on the ASCII keys
this tool uses). -/
def charListLt : List Char → List Char → Bool
  | [], [] => false
  | [], _ :: _ => true
  | _ :: _, [] => false
  | c1 :: r1, c2 :: r2 =>
    if c1.toNat < c2.toNat then true
    else if c2.toNat < c1.toNat then false
    else charListLt r1 r2

/-- Strict order on strings (Rust `Ord for String`). -/
def strLt (a b : String) : Bool := charListLt a.data b.data

/-- `BTreeMap::insert`: keep the list sorted by key; an insert at an
existing key silently replaces the old value (the Rust call sites all
discard `insert`'s returned old value). -/
def mapInsert {α : Type} : List (String × α) → String → α → List (String × α)
  | [], k, v => [(k, v)]
  | (k0, v0) :: rest, k, v =>
    if strLt k k0 then (k, v) :: (k0, v0) :: rest
    else if k = k0 then (k, v) :: rest
    else (k0, v0) :: mapInsert rest k v

/-- The input side of the filesystem (`ReadDirectory`): the files of a
directory and its named subdirectories. Only enumeration of files and
descent by name are used by the tool. -/
inductive InputDir where
  | mk (files : List FileEntry) (subdirs : List (String × InputDir))

def InputDir.files : InputDir → List FileEntry
  | InputDir.mk f _ => f

def InputDir.subdirs : InputDir → List (String × InputDir)
  | InputDir.mk _ s => s

/-- `ReadDirectory::subdirectory`: pure path composition; it never fails
by itself (descending below a missing directory stays "missing"). -/
def subdirectory (dir : Option InputDir) (name : String) : Option InputDir :=
  match dir with
  | none => none
  | some d => lookupS d.subdirs name

/-- Rust `modify_xaml_files` loop: patch each enumerated file and insert
only the changed ones into the fresh `BTreeMap`, under their original
names. A patch panic aborts the run. -/
def modify_xaml_files_loop (entries : List (String × DirectoryEntry)) :
    List FileEntry → Except Unit (List (String × DirectoryEntry))
  | [] => Except.ok entries
  | file_entry :: rest =>
    match modify_xaml_file file_entry.content with
    | Except.error e => Except.error e
    | Except.ok (some modified) =>
        modify_xaml_files_loop (mapInsert entries file_entry.name (DirectoryEntry.file modified))
          rest
    | Except.ok none => modify_xaml_files_loop entries rest

/-- Rust `modify_xaml_files`: enumerating a missing directory panics
(`read_dir(..).expect`), which aborts the run. -/
def modify_xaml_files (directory : Option InputDir) :
    Except Unit (List (String × DirectoryEntry)) :=
  match directory with
  | none => Except.error ()
  | some d => modify_xaml_files_loop [] d.files

/-- The fixed subdirectory names scanned by `modify_wpfg`. -/
def wpfg_subdirectory_names : List String := ["dialog", "panel", "screen", "tab"]

/-- The `for subdirectory in [...]` loop of Rust `modify_wpfg`: patch the
files of each named subdirectory and insert the resulting directory node
under that name (`BTreeMap::insert`, replacing silently on collision). -/
def modify_wpfg_loop (wpfg_installation : Option InputDir)
    (entries : List (String × DirectoryEntry)) :
    List String → Except Unit (List (String × DirectoryEntry))
  | [] => Except.ok entries
  | name :: more =>
    match modify_xaml_files (subdirectory wpfg_installation name) with
    | Except.error e => Except.error e
    | Except.ok modified_files =>
        modify_wpfg_loop wpfg_installation
          (mapInsert entries name (DirectoryEntry.subdirectory modified_files)) more

/-- Rust `modify_wpfg`: the root-level patched files, then the four fixed
subdirectory nodes. -/
def modify_wpfg (wpfg_installation : Option InputDir) :
    Except Unit (List (String × DirectoryEntry)) :=
  match modify_xaml_files wpfg_installation with
  | Except.error e => Except.error e
  | Except.ok entries => modify_wpfg_loop wpfg_installation entries wpfg_subdirectory_names

/-- Rust `create_info_json`: the metadata object built by the `json!`
macro, as key/rendered-value pairs in source order. `serde_json`'s map
is a `BTreeMap`, so serialization iterates keys in sorted order. -/
def create_info_json : List (String × String) :=
  [("Author", "\"Flauschfuchs\""),
   ("CacheStatus", "0"),
   ("Description",
    "\"Recreation of <b>0xDB No UI Transitions 1.4</b> by Flauschfuchs so that it works in May 2024.\""),
   ("Title", "\"Reduced UI Animations\"")]

/-- `serde_json::Value::to_string` on an object: keys in `BTreeMap`
(sorted) order, compact separators, no whitespace. -/
def json_object_to_string (pairs : List (String × String)) : String :=
  let sorted := pairs.foldl (fun acc p => mapInsert acc p.1 p.2) ([] : List (String × String))
  "\x7b" ++ String.intercalate "," (sorted.map (fun p => "\"" ++ p.1 ++ "\":" ++ p.2)) ++ "\x7d"

/-- The serialized `info.json` content. -/
def info_json_bytes : List Nat := utf8Encode (json_object_to_string create_info_json)

/-- Rust `generate_mod`: `info.json` at the root, then the patched wpfg
tree nested under `resources/_common/wpfg`. -/
def generate_mod (game_installation : InputDir) :
    Except Unit (List (String × DirectoryEntry)) :=
  let entries := mapInsert ([] : List (String × DirectoryEntry)) "info.json"
    (DirectoryEntry.file info_json_bytes)
  let resources := subdirectory (some game_installation) "resources"
  let common := subdirectory resources "_common"
  let wpfg := subdirectory common "wpfg"
  match modify_wpfg wpfg with
  | Except.error e => Except.error e
  | Except.ok modified =>
      Except.ok (mapInsert entries "resources"
        (DirectoryEntry.subdirectory
          [("_common",
            DirectoryEntry.subdirectory
              [("wpfg", DirectoryEntry.subdirectory modified)])]))

/-- An input directory that has the four wpfg subdirectories and no files
anywhere. -/
def emptyWpfgInput : InputDir :=
  InputDir.mk []
    [("dialog", InputDir.mk [] []), ("panel", InputDir.mk [] []),
     ("screen", InputDir.mk [] []), ("tab", InputDir.mk [] [])]

/-- Does any rule match anywhere in a child list (any descendant element
with a removal tag, or any fade-brush rectangle)? -/
def forestHasMatch : XmlForest → Bool
  | XmlForest.nil => false
  | XmlForest.cons child rest =>
    removal_name (nodeName child) || is_fade_brush_rectangle child ||
      (match child with
       | XmlNode.element _ _ ch => forestHasMatch ch
       | _ => false) ||
      forestHasMatch rest

/-- Does the child list contain (anywhere) a fade-brush rectangle? -/
def forest_has_fade_rect : XmlForest → Bool
  | XmlForest.nil => false
  | XmlForest.cons child rest =>
    is_fade_brush_rectangle child ||
      (match child with
       | XmlNode.element _ _ ch => forest_has_fade_rect ch
       | _ => false) ||
      forest_has_fade_rect rest

/-- The sortedness invariant of the `BTreeMap` model. -/
def keysSorted {α : Type} (m : List (String × α)) : Prop :=
  List.Pairwise (fun p q => strLt p.1 q.1 = true) m

def c10Source : String :=
  "<Test xmlns=\"test\"><Rectangle x:Name=\"Fade\" Canvas.Left=\"-1\" Canvas.Top=\"-1\""
    ++ " Fill=\"Green\" Height=\"1\" Width=\"1\"></Rectangle></Test>"

def c10Doc : XmlDocument :=
  ⟨XmlForest.cons
    (XmlNode.element "Test" [("xmlns", "test")]
      (XmlForest.cons
        (XmlNode.element "Rectangle"
          [("x:Name", "Fade"), ("Canvas.Left", "-1"), ("Canvas.Top", "-1"), ("Fill", "Green"),
           ("Height", "1"), ("Width", "1")] XmlForest.nil)
        XmlForest.nil))
    XmlForest.nil⟩

def exBytesUnchanged : List Nat := utf8Encode "<T xmlns=\"t\"></T>"

def exBytesChanged : List Nat :=
  utf8Encode "<T xmlns=\"t\" xmlns:local=\"b\"><local:Age2SwipeEffect/></T>"

def exPatchedOut : String :=
  "<T xmlns=\"t\" xmlns:local=\"b\"><!--The mod Reduced UI Animations replaced an element"
    ++ " here: local:Age2SwipeEffect--></T>"

def exDir : InputDir :=
  InputDir.mk [⟨"a.xaml", exBytesUnchanged⟩, ⟨"b.xaml", exBytesChanged⟩] []

def exOutMap : List (String × DirectoryEntry) :=
  [("b.xaml", DirectoryEntry.file (utf8Encode exPatchedOut))]

def exDocUnchanged : XmlDocument :=
  ⟨XmlForest.cons (XmlNode.element "T" [("xmlns", "t")] XmlForest.nil) XmlForest.nil⟩

def exDocChanged : XmlDocument :=
  ⟨XmlForest.cons
    (XmlNode.element "T" [("xmlns", "t"), ("xmlns:local", "b")]
      (XmlForest.cons (XmlNode.element "local:Age2SwipeEffect" [] XmlForest.nil) XmlForest.nil))
    XmlForest.nil⟩

def exGame : InputDir :=
  InputDir.mk []
    [("resources", InputDir.mk []
      [("_common", InputDir.mk [] [("wpfg", emptyWpfgInput)])])]

def exGameTree : List (String × DirectoryEntry) :=
  [("info.json", DirectoryEntry.file info_json_bytes),
   ("resources", DirectoryEntry.subdirectory
     [("_common", DirectoryEntry.subdirectory
       [("wpfg", DirectoryEntry.subdirectory
         [("dialog", DirectoryEntry.subdirectory []),
          ("panel", DirectoryEntry.subdirectory []),
          ("screen", DirectoryEntry.subdirectory []),
          ("tab", DirectoryEntry.subdirectory [])])])])]

def exEmptyWpfgResult : List (String × DirectoryEntry) :=
  [("dialog", DirectoryEntry.subdirectory []), ("panel", DirectoryEntry.subdirectory []),
   ("screen", DirectoryEntry.subdirectory []), ("tab", DirectoryEntry.subdirectory [])]

def c7FileBytes : List Nat :=
  utf8Encode "<T xmlns=\"t\" xmlns:local=\"b\"><local:Age2BlurEffect/></T>"

def c7PatchedBytes : List Nat :=
  utf8Encode ("<T xmlns=\"t\" xmlns:local=\"b\"><!--The mod Reduced UI Animations replaced an"
    ++ " element here: local:Age2BlurEffect--></T>")

def c7Input : InputDir :=
  InputDir.mk [⟨"dialog", c7FileBytes⟩]
    [("dialog", InputDir.mk [] []), ("panel", InputDir.mk [] []),
     ("screen", InputDir.mk [] []), ("tab", InputDir.mk [] [])]

def c7Result : List (String × DirectoryEntry) :=
  [("dialog", DirectoryEntry.subdirectory []), ("panel", DirectoryEntry.subdirectory []),
   ("screen", DirectoryEntry.subdirectory []), ("tab", DirectoryEntry.subdirectory [])]

def c6Bytes : List Nat := utf8Encode "<a xmlns=\"t\">" ++ [0xFF] ++ utf8Encode "</a>"

def c1Doc1 : XmlDocument :=
  ⟨XmlForest.cons
    (XmlNode.element "Rectangle" [("Height", "1"), ("Width", "1")] XmlForest.nil)
    XmlForest.nil⟩

def c1Doc2 : XmlDocument :=
  ⟨XmlForest.cons
    (XmlNode.element "Rectangle" [("Width", "1"), ("Height", "1")] XmlForest.nil)
    XmlForest.nil⟩

theorem sanity_check_1 :
    patch_children (XmlForest.ofList [XmlNode.element "local:Age2SwipeEffect" [] XmlForest.nil]) =
      (XmlForest.ofList
        [XmlNode.comment "The mod Reduced UI Animations replaced an element here: local:Age2SwipeEffect"],
       PatchStatus.Changed) := by decide

theorem sanity_check_2 :
    patch_children
        (XmlForest.ofList
          [XmlNode.element "Rectangle" [("x:Name", "Fade"), ("Fill", "X")] XmlForest.nil]) =
      (XmlForest.ofList
        [XmlNode.element "Rectangle"
          [("x:Name", "Fade"), ("Fill", "Green"), ("Canvas.Left", "-1"), ("Canvas.Top", "-1"),
           ("Height", "1"), ("Width", "1")] XmlForest.nil],
       PatchStatus.Changed) := by decide

theorem sanity_check_3 :
    read_xml "<Test xmlns=\"test\"></Test>" =
      some ⟨XmlForest.cons (XmlNode.element "Test" [("xmlns", "test")] XmlForest.nil)
              XmlForest.nil⟩ := by decide

theorem sanity_check_4 :
    read_xml "<Test xmlns=\"test\" xmlns:local=\"bla\"><local:Age2SwipeEffect/></Test>" =
      some ⟨XmlForest.cons
              (XmlNode.element "Test" [("xmlns", "test"), ("xmlns:local", "bla")]
                (XmlForest.cons (XmlNode.element "local:Age2SwipeEffect" [] XmlForest.nil)
                  XmlForest.nil))
              XmlForest.nil⟩ := by decide

theorem sanity_check_5 : decode_with_bom_removal (utf8Encode "<a>x</a>") = ("<a>x</a>", false) := by decide

theorem sanity_check_6 : (decode_with_bom_removal [0x41, 0xFF, 0x42]).2 = true := by decide

theorem sanity_check_7 : patch_xaml "<Test xmlns=\"test\"></Test>" = Except.ok none := by decide

theorem sanity_check_8 :
    patch_xaml "<Test xmlns=\"test\" xmlns:local=\"bla\"><local:Age2SwipeEffect/></Test>" =
      Except.ok (some ("<Test xmlns=\"test\" xmlns:local=\"bla\"><!--The mod Reduced UI Animations"
        ++ " replaced an element here: local:Age2SwipeEffect--></Test>")) := by decide

theorem sanity_check_9 :
    json_object_to_string create_info_json =
      "\x7b\"Author\":\"Flauschfuchs\",\"CacheStatus\":0,\"Description\":\"Recreation of <b>0xDB"
        ++ " No UI Transitions 1.4</b> by Flauschfuchs so that it works in May 2024.\",\"Title\":"
        ++ "\"Reduced UI Animations\"\x7d" := by decide

theorem sanity_check_10 :
    modify_wpfg (some emptyWpfgInput) =
      Except.ok
        [("dialog", DirectoryEntry.subdirectory []), ("panel", DirectoryEntry.subdirectory []),
         ("screen", DirectoryEntry.subdirectory []), ("tab", DirectoryEntry.subdirectory [])] :=
  rfl

theorem lookupA_setAttrList_same (a : List (String × String)) (k v : String) :
    lookupA (setAttrList a k v) k = some v := by
  induction a with
  | nil => simp [setAttrList, lookupA]
  | cons p rest ih =>
    by_cases h : p.1 = k
    · simp [setAttrList, h, lookupA]
    · simp [setAttrList, h, lookupA, ih]

theorem lookupA_setAttrList_other (a : List (String × String)) (k v k' : String)
    (h : k' ≠ k) : lookupA (setAttrList a k v) k' = lookupA a k' := by
  induction a with
  | nil => simp [setAttrList, lookupA, Ne.symm h]
  | cons p rest ih =>
    obtain ⟨k0, v0⟩ := p
    by_cases h0 : k0 = k
    · simp [setAttrList, h0, lookupA, Ne.symm h]
    · simp [setAttrList, h0, lookupA, ih]

theorem setAttrList_self (a : List (String × String)) (k v : String)
    (h : lookupA a k = some v) : setAttrList a k v = a := by
  induction a with
  | nil => simp [lookupA] at h
  | cons p rest ih =>
    obtain ⟨k0, v0⟩ := p
    by_cases h0 : k0 = k
    · simp [lookupA, h0] at h
      simp [setAttrList, h0, h]
    · simp [lookupA, h0] at h
      simp [setAttrList, h0, ih h]

theorem fade_lookup_left (a : List (String × String)) :
    lookupA (fade_brush_attributes a) "Canvas.Left" = some "-1" := by
  unfold fade_brush_attributes
  rw [lookupA_setAttrList_other _ _ _ _ (by decide), lookupA_setAttrList_other _ _ _ _ (by decide),
    lookupA_setAttrList_other _ _ _ _ (by decide), lookupA_setAttrList_other _ _ _ _ (by decide),
    lookupA_setAttrList_same]

theorem fade_lookup_top (a : List (String × String)) :
    lookupA (fade_brush_attributes a) "Canvas.Top" = some "-1" := by
  unfold fade_brush_attributes
  rw [lookupA_setAttrList_other _ _ _ _ (by decide), lookupA_setAttrList_other _ _ _ _ (by decide),
    lookupA_setAttrList_other _ _ _ _ (by decide), lookupA_setAttrList_same]

theorem fade_lookup_fill (a : List (String × String)) :
    lookupA (fade_brush_attributes a) "Fill" = some "Green" := by
  unfold fade_brush_attributes
  rw [lookupA_setAttrList_other _ _ _ _ (by decide), lookupA_setAttrList_other _ _ _ _ (by decide),
    lookupA_setAttrList_same]

theorem fade_lookup_height (a : List (String × String)) :
    lookupA (fade_brush_attributes a) "Height" = some "1" := by
  unfold fade_brush_attributes
  rw [lookupA_setAttrList_other _ _ _ _ (by decide), lookupA_setAttrList_same]

theorem fade_lookup_width (a : List (String × String)) :
    lookupA (fade_brush_attributes a) "Width" = some "1" := by
  unfold fade_brush_attributes
  rw [lookupA_setAttrList_same]

theorem fade_lookup_other (a : List (String × String)) (k : String)
    (h1 : k ≠ "Canvas.Left") (h2 : k ≠ "Canvas.Top") (h3 : k ≠ "Fill")
    (h4 : k ≠ "Height") (h5 : k ≠ "Width") :
    lookupA (fade_brush_attributes a) k = lookupA a k := by
  unfold fade_brush_attributes
  rw [lookupA_setAttrList_other _ _ _ _ h5, lookupA_setAttrList_other _ _ _ _ h4,
    lookupA_setAttrList_other _ _ _ _ h3, lookupA_setAttrList_other _ _ _ _ h2,
    lookupA_setAttrList_other _ _ _ _ h1]

theorem fade_idem (a : List (String × String)) :
    fade_brush_attributes (fade_brush_attributes a) = fade_brush_attributes a := by
  conv_lhs => rw [fade_brush_attributes]
  rw [setAttrList_self _ _ _ (fade_lookup_left a), setAttrList_self _ _ _ (fade_lookup_top a),
    setAttrList_self _ _ _ (fade_lookup_fill a), setAttrList_self _ _ _ (fade_lookup_height a),
    setAttrList_self _ _ _ (fade_lookup_width a)]

theorem is_fade_iff (t : String) (a : List (String × String)) (ch : XmlForest) :
    is_fade_brush_rectangle (XmlNode.element t a ch) = true ↔
      (t = "Rectangle" ∧ lookupA a "x:Name" = some "Fade") := by
  by_cases ht : t = "Rectangle"
  · cases hx : lookupA a "x:Name" with
    | none => simp [is_fade_brush_rectangle, nodeName, get_attribute, ht, hx]
    | some name => simp [is_fade_brush_rectangle, nodeName, get_attribute, ht, hx]
  · simp [is_fade_brush_rectangle, nodeName, get_attribute, ht]

/-- Structural induction over child lists, with an induction hypothesis
for the child list of each element head (the recursion pattern of
`patch_children`). -/
theorem XmlForest.induct2 (P : XmlForest → Prop) (hnil : P XmlForest.nil)
    (helem : ∀ t a ch rest, P ch → P rest → P (XmlForest.cons (XmlNode.element t a ch) rest))
    (htext : ∀ s rest, P rest → P (XmlForest.cons (XmlNode.text s) rest))
    (hcomment : ∀ s rest, P rest → P (XmlForest.cons (XmlNode.comment s) rest)) :
    ∀ l, P l
  | XmlForest.nil => hnil
  | XmlForest.cons (XmlNode.element t a ch) rest =>
      helem t a ch rest (XmlForest.induct2 P hnil helem htext hcomment ch)
        (XmlForest.induct2 P hnil helem htext hcomment rest)
  | XmlForest.cons (XmlNode.text s) rest =>
      htext s rest (XmlForest.induct2 P hnil helem htext hcomment rest)
  | XmlForest.cons (XmlNode.comment s) rest =>
      hcomment s rest (XmlForest.induct2 P hnil helem htext hcomment rest)

/-- The status computed by the patch loop is `Changed` exactly when some
rule matches somewhere in the child list. -/
theorem patch_children_status (l : XmlForest) :
    (patch_children l).2 =
      (if forestHasMatch l then PatchStatus.Changed else PatchStatus.Unchanged) := by
  induction l using XmlForest.induct2 with
  | hnil => simp [patch_children, forestHasMatch]
  | helem t a ch rest ihch ihrest =>
    by_cases hr : removal_name t
    · simp [patch_children, forestHasMatch, nodeName, hr]
    · by_cases hf : is_fade_brush_rectangle (XmlNode.element t a ch) <;>
        by_cases hch : forestHasMatch ch <;>
        by_cases hrest : forestHasMatch rest <;>
        simp [patch_children, forestHasMatch, nodeName, hr, hf, hch, hrest, ihch, ihrest, combine]
  | htext s rest ih =>
    have hr : removal_name (nodeName (XmlNode.text s)) = false := rfl
    have hf : is_fade_brush_rectangle (XmlNode.text s) = false := rfl
    simp [patch_children, forestHasMatch, hr, hf, ih]
  | hcomment s rest ih =>
    have hr : removal_name (nodeName (XmlNode.comment s)) = false := rfl
    have hf : is_fade_brush_rectangle (XmlNode.comment s) = false := rfl
    simp [patch_children, forestHasMatch, hr, hf, ih]

theorem patch_children_cons_removal (child : XmlNode) (rest : XmlForest)
    (h : removal_name (nodeName child) = true) :
    patch_children (XmlForest.cons child rest) =
      (XmlForest.cons (XmlNode.comment (placeholderComment (nodeName child)))
        (patch_children rest).1, PatchStatus.Changed) := by
  cases child with
  | element t a ch =>
    simp only [nodeName] at h
    simp [patch_children, nodeName, h]
  | text s => simp [nodeName, removal_name] at h
  | comment s => simp [nodeName, removal_name] at h

theorem patch_children_cons_element (t : String) (a : List (String × String))
    (ch rest : XmlForest) (h : removal_name t = false) :
    patch_children (XmlForest.cons (XmlNode.element t a ch) rest) =
      (XmlForest.cons
          (XmlNode.element t
            (if is_fade_brush_rectangle (XmlNode.element t a ch) = true then
              fade_brush_attributes a
             else a)
            (patch_children ch).1)
          (patch_children rest).1,
        combine
          (combine
            (if is_fade_brush_rectangle (XmlNode.element t a ch) = true then PatchStatus.Changed
             else PatchStatus.Unchanged)
            (patch_children ch).2)
          (patch_children rest).2) := by
  simp [patch_children, nodeName, h]

theorem patch_children_cons_text (s : String) (rest : XmlForest) :
    patch_children (XmlForest.cons (XmlNode.text s) rest) =
      (XmlForest.cons (XmlNode.text s) (patch_children rest).1, (patch_children rest).2) := by
  have h : removal_name (nodeName (XmlNode.text s)) = false := rfl
  simp [patch_children, h]

theorem patch_children_cons_comment (s : String) (rest : XmlForest) :
    patch_children (XmlForest.cons (XmlNode.comment s) rest) =
      (XmlForest.cons (XmlNode.comment s) (patch_children rest).1, (patch_children rest).2) := by
  have h : removal_name (nodeName (XmlNode.comment s)) = false := rfl
  simp [patch_children, h]

theorem is_fade_fade_attrs (t : String) (a : List (String × String)) (ch ch' : XmlForest) :
    is_fade_brush_rectangle (XmlNode.element t (fade_brush_attributes a) ch') =
      is_fade_brush_rectangle (XmlNode.element t a ch) := by
  have hx : lookupA (fade_brush_attributes a) "x:Name" = lookupA a "x:Name" :=
    fade_lookup_other a "x:Name" (by decide) (by decide) (by decide) (by decide) (by decide)
  simp only [is_fade_brush_rectangle, nodeName, get_attribute, hx]

/-- The patched child list is a fixed point of the patch: placeholder
comments never match a rule, rewritten rectangles are rewritten to the
same values, and recursion preserves already-patched children. -/
theorem patch_children_idem (l : XmlForest) :
    (patch_children (patch_children l).1).1 = (patch_children l).1 := by
  induction l using XmlForest.induct2 with
  | hnil => rfl
  | helem t a ch rest ihch ihrest =>
    by_cases hr : removal_name t = true
    · rw [patch_children_cons_removal (XmlNode.element t a ch) rest (by simpa [nodeName] using hr)]
      simp [nodeName, patch_children_cons_comment, ihrest]
    · have hrt : removal_name t = false := by simpa using hr
      rw [patch_children_cons_element t a ch rest hrt]
      by_cases hf : is_fade_brush_rectangle (XmlNode.element t a ch) = true
      · have hf2 : is_fade_brush_rectangle
            (XmlNode.element t (fade_brush_attributes a) (patch_children ch).1) = true := by
          rw [is_fade_fade_attrs t a ch (patch_children ch).1]
          exact hf
        simp only [hf, if_true]
        rw [patch_children_cons_element t (fade_brush_attributes a) (patch_children ch).1
          (patch_children rest).1 hrt]
        simp [hf2, fade_idem, ihch, ihrest]
      · have hf0 : is_fade_brush_rectangle (XmlNode.element t a ch) = false := by
          simpa using hf
        have hf2 : is_fade_brush_rectangle (XmlNode.element t a (patch_children ch).1) = false :=
          hf0
        simp only [hf0, Bool.false_eq_true, if_false]
        rw [patch_children_cons_element t a (patch_children ch).1 (patch_children rest).1 hrt]
        simp [hf2, ihch, ihrest]
  | htext s rest ih => simp [patch_children_cons_text, ih]
  | hcomment s rest ih => simp [patch_children_cons_comment, ih]

theorem fade_rect_implies_match (l : XmlForest) (h : forest_has_fade_rect l = true) :
    forestHasMatch l = true := by
  induction l using XmlForest.induct2 with
  | hnil => simp [forest_has_fade_rect] at h
  | helem t a ch rest ihch ihrest =>
    simp only [forest_has_fade_rect, Bool.or_eq_true] at h
    simp only [forestHasMatch, Bool.or_eq_true]
    rcases h with (h | h) | h
    · exact Or.inl (Or.inl (Or.inr h))
    · exact Or.inl (Or.inr (ihch h))
    · exact Or.inr (ihrest h)
  | htext s rest ih =>
    simp only [forest_has_fade_rect, Bool.or_eq_true] at h
    simp only [forestHasMatch, Bool.or_eq_true]
    rcases h with (h | h) | h
    · cases h
    · cases h
    · exact Or.inr (ih h)
  | hcomment s rest ih =>
    simp only [forest_has_fade_rect, Bool.or_eq_true] at h
    simp only [forestHasMatch, Bool.or_eq_true]
    rcases h with (h | h) | h
    · cases h
    · cases h
    · exact Or.inr (ih h)

theorem charListLt_irrefl (l : List Char) : charListLt l l = false := by
  induction l with
  | nil => rfl
  | cons c r ih => simp [charListLt, ih]

theorem charListLt_trans (a : List Char) :
    ∀ b c, charListLt a b = true → charListLt b c = true → charListLt a c = true := by
  induction a with
  | nil =>
    intro b c h1 h2
    cases b with
    | nil => simp [charListLt] at h1
    | cons b1 br =>
      cases c with
      | nil => simp [charListLt] at h2
      | cons c1 cr => simp [charListLt]
  | cons a1 ar ih =>
    intro b c h1 h2
    cases b with
    | nil => simp [charListLt] at h1
    | cons b1 br =>
      cases c with
      | nil => simp [charListLt] at h2
      | cons c1 cr =>
        simp only [charListLt] at h1 h2 ⊢
        by_cases hab : a1.toNat < b1.toNat
        · by_cases hbc : b1.toNat < c1.toNat
          · have hac : a1.toNat < c1.toNat := Nat.lt_trans hab hbc
            simp [hac]
          · by_cases hcb : c1.toNat < b1.toNat
            · simp [hbc, hcb] at h2
            · have hac : a1.toNat < c1.toNat := by omega
              simp [hac]
        · by_cases hba : b1.toNat < a1.toNat
          · simp [hab, hba] at h1
          · by_cases hbc : b1.toNat < c1.toNat
            · have hac : a1.toNat < c1.toNat := by omega
              simp [hac]
            · by_cases hcb : c1.toNat < b1.toNat
              · simp [hbc, hcb] at h2
              · have h1' : charListLt ar br = true := by simpa [hab, hba] using h1
                have h2' : charListLt br cr = true := by simpa [hbc, hcb] using h2
                have hac : ¬a1.toNat < c1.toNat := by omega
                have hca : ¬c1.toNat < a1.toNat := by omega
                simp [hac, hca, ih br cr h1' h2']

theorem charListLt_total (a : List Char) :
    ∀ b, a ≠ b → charListLt a b = false → charListLt b a = true := by
  induction a with
  | nil =>
    intro b hne h
    cases b with
    | nil => exact absurd rfl hne
    | cons b1 br => simp [charListLt] at h
  | cons a1 ar ih =>
    intro b hne h
    cases b with
    | nil => simp [charListLt]
    | cons b1 br =>
      simp only [charListLt] at h ⊢
      by_cases hab : a1.toNat < b1.toNat
      · simp [hab] at h
      · by_cases hba : b1.toNat < a1.toNat
        · simp [hba]
        · have heq : a1 = b1 := by
            apply Char.ext
            apply UInt32.ext
            have hn : a1.toNat = b1.toNat := by omega
            simpa [Char.toNat, UInt32.toNat] using hn
          have h' : charListLt ar br = false := by simpa [hab, hba] using h
          have hne' : ar ≠ br := by
            intro hr
            exact hne (by rw [heq, hr])
          simp [hab, hba, ih br hne' h']

theorem strLt_irrefl (a : String) : strLt a a = false := charListLt_irrefl a.data

theorem strLt_ne (a b : String) (h : strLt a b = true) : a ≠ b := by
  intro he
  subst he
  rw [strLt_irrefl] at h
  cases h

theorem strLt_trans (a b c : String) (h1 : strLt a b = true) (h2 : strLt b c = true) :
    strLt a c = true := charListLt_trans a.data b.data c.data h1 h2

theorem strLt_total (a b : String) (hne : a ≠ b) (h : strLt a b = false) : strLt b a = true := by
  apply charListLt_total a.data b.data _ h
  intro hd
  apply hne
  cases a
  cases b
  exact congrArg String.mk hd

theorem lookupS_mapInsert_same {α : Type} (m : List (String × α)) (k : String) (v : α) :
    lookupS (mapInsert m k v) k = some v := by
  induction m with
  | nil => simp [mapInsert, lookupS]
  | cons p rest ih =>
    obtain ⟨k0, v0⟩ := p
    by_cases h1 : strLt k k0
    · simp [mapInsert, h1, lookupS]
    · by_cases h2 : k = k0
      · subst h2
        have hi : strLt k k = false := strLt_irrefl k
        simp [mapInsert, hi, lookupS]
      · simp [mapInsert, h1, h2, lookupS, Ne.symm h2, ih]

theorem lookupS_mapInsert_other {α : Type} (m : List (String × α)) (k : String) (v : α)
    (k' : String) (h : k' ≠ k) : lookupS (mapInsert m k v) k' = lookupS m k' := by
  induction m with
  | nil => simp [mapInsert, lookupS, Ne.symm h]
  | cons p rest ih =>
    obtain ⟨k0, v0⟩ := p
    by_cases h1 : strLt k k0
    · simp [mapInsert, h1, lookupS, Ne.symm h]
    · by_cases h2 : k = k0
      · subst h2
        have hi : strLt k k = false := strLt_irrefl k
        simp [mapInsert, hi, lookupS, Ne.symm h]
      · simp [mapInsert, h1, h2, lookupS, ih]

theorem keysSorted_nil {α : Type} : keysSorted ([] : List (String × α)) := List.Pairwise.nil

theorem mem_mapInsert {α : Type} (m : List (String × α)) (k : String) (v : α) (p : String × α)
    (h : p ∈ mapInsert m k v) : p = (k, v) ∨ p ∈ m := by
  induction m with
  | nil => simpa [mapInsert] using h
  | cons q rest ih =>
    obtain ⟨k0, v0⟩ := q
    by_cases h1 : strLt k k0
    · simp only [mapInsert] at h
      rw [if_pos h1] at h
      exact List.mem_cons.mp h
    · by_cases h2 : k = k0
      · subst h2
        simp only [mapInsert] at h
        rw [if_neg h1, if_pos trivial] at h
        rcases List.mem_cons.mp h with hh | hh
        · exact Or.inl hh
        · exact Or.inr (List.mem_cons_of_mem _ hh)
      · simp only [mapInsert] at h
        rw [if_neg h1, if_neg h2] at h
        rcases List.mem_cons.mp h with hh | hh
        · exact Or.inr (by simp [hh])
        · rcases ih hh with hhh | hhh
          · exact Or.inl hhh
          · exact Or.inr (List.mem_cons_of_mem _ hhh)

theorem mapInsert_keysSorted {α : Type} (m : List (String × α)) (k : String) (v : α)
    (hs : keysSorted m) : keysSorted (mapInsert m k v) := by
  induction m with
  | nil => simp [mapInsert, keysSorted]
  | cons q rest ih =>
    obtain ⟨k0, v0⟩ := q
    rw [keysSorted, List.pairwise_cons] at hs
    obtain ⟨hall, hrest⟩ := hs
    by_cases h1 : strLt k k0
    · simp only [mapInsert]
      rw [if_pos h1]
      rw [keysSorted, List.pairwise_cons]
      refine ⟨?_, List.pairwise_cons.mpr ⟨hall, hrest⟩⟩
      intro p hp
      rcases List.mem_cons.mp hp with hp | hp
      · rw [hp]
        exact h1
      · exact strLt_trans _ _ _ h1 (hall p hp)
    · by_cases h2 : k = k0
      · subst h2
        simp only [mapInsert]
        rw [if_neg h1, if_pos trivial]
        rw [keysSorted, List.pairwise_cons]
        exact ⟨hall, hrest⟩
      · simp only [mapInsert]
        rw [if_neg h1, if_neg h2]
        rw [keysSorted, List.pairwise_cons]
        refine ⟨?_, ih hrest⟩
        intro p hp
        rcases mem_mapInsert rest k v p hp with hp | hp
        · rw [hp]
          exact strLt_total k k0 h2 (by simpa using h1)
        · exact hall p hp

theorem lookupS_some_mem {α : Type} (m : List (String × α)) (k : String) (v : α)
    (h : lookupS m k = some v) : (k, v) ∈ m := by
  induction m with
  | nil => simp [lookupS] at h
  | cons q rest ih =>
    obtain ⟨k0, v0⟩ := q
    by_cases h0 : k0 = k
    · subst h0
      simp only [lookupS, if_pos rfl] at h
      cases h
      exact List.mem_cons_self _ _
    · simp only [lookupS] at h
      rw [if_neg h0] at h
      exact List.mem_cons_of_mem _ (ih h)

theorem keys_nodup_of_sorted {α : Type} (m : List (String × α)) (hs : keysSorted m) :
    (m.map Prod.fst).Nodup := by
  unfold List.Nodup
  rw [List.pairwise_map]
  exact hs.imp (fun h => strLt_ne _ _ h)

theorem modify_xaml_files_loop_sorted (files : List FileEntry) :
    ∀ acc m, keysSorted acc → modify_xaml_files_loop acc files = Except.ok m →
      keysSorted m := by
  induction files with
  | nil =>
    intro acc m hs h
    cases h
    exact hs
  | cons f rest ih =>
    intro acc m hs h
    simp only [modify_xaml_files_loop] at h
    cases hmod : modify_xaml_file f.content with
    | error e =>
      rw [hmod] at h
      cases h
    | ok mo =>
      cases mo with
      | some modified =>
        rw [hmod] at h
        exact ih _ _ (mapInsert_keysSorted _ _ _ hs) h
      | none =>
        rw [hmod] at h
        exact ih _ _ hs h

theorem modify_xaml_files_loop_skip (files : List FileEntry) :
    ∀ acc m (k : String), k ∉ files.map FileEntry.name →
      modify_xaml_files_loop acc files = Except.ok m → lookupS m k = lookupS acc k := by
  induction files with
  | nil =>
    intro acc m k hk h
    cases h
    rfl
  | cons f rest ih =>
    intro acc m k hk h
    simp only [List.map_cons, List.mem_cons] at hk
    push_neg at hk
    obtain ⟨hk1, hk2⟩ := hk
    simp only [modify_xaml_files_loop] at h
    cases hmod : modify_xaml_file f.content with
    | error e =>
      rw [hmod] at h
      cases h
    | ok mo =>
      cases mo with
      | some modified =>
        rw [hmod] at h
        rw [ih _ _ _ hk2 h, lookupS_mapInsert_other _ _ _ _ hk1]
      | none =>
        rw [hmod] at h
        exact ih _ _ _ hk2 h

theorem modify_xaml_files_loop_lookup (files : List FileEntry) :
    ∀ acc m, modify_xaml_files_loop acc files = Except.ok m →
      (files.map FileEntry.name).Nodup →
      ∀ f, f ∈ files → lookupS acc f.name = none →
      lookupS m f.name =
        (match modify_xaml_file f.content with
         | Except.ok (some out) => some (DirectoryEntry.file out)
         | _ => none) := by
  induction files with
  | nil =>
    intro acc m h hnd f hf
    cases hf
  | cons g rest ih =>
    intro acc m h hnd f hf hacc
    simp only [List.map_cons, List.nodup_cons] at hnd
    obtain ⟨hg, hnd'⟩ := hnd
    simp only [modify_xaml_files_loop] at h
    rcases List.mem_cons.mp hf with hfg | hfr
    · subst hfg
      cases hmod : modify_xaml_file f.content with
      | error e =>
        rw [hmod] at h
        cases h
      | ok mo =>
        cases mo with
        | some modified =>
          rw [hmod] at h
          rw [modify_xaml_files_loop_skip rest _ _ _ hg h, lookupS_mapInsert_same]
        | none =>
          rw [hmod] at h
          rw [modify_xaml_files_loop_skip rest _ _ _ hg h]
          exact hacc
    · have hne : f.name ≠ g.name := by
        intro he
        apply hg
        rw [← he]
        exact List.mem_map_of_mem FileEntry.name hfr
      cases hmod : modify_xaml_file g.content with
      | error e =>
        rw [hmod] at h
        cases h
      | ok mo =>
        cases mo with
        | some modified =>
          rw [hmod] at h
          exact ih _ _ h hnd' f hfr
            (by rw [lookupS_mapInsert_other _ _ _ _ hne]; exact hacc)
        | none =>
          rw [hmod] at h
          exact ih _ _ h hnd' f hfr hacc

theorem modify_wpfg_loop_sorted (names : List String) :
    ∀ w entries m, keysSorted entries → modify_wpfg_loop w entries names = Except.ok m →
      keysSorted m := by
  induction names with
  | nil =>
    intro w entries m hs h
    cases h
    exact hs
  | cons name more ih =>
    intro w entries m hs h
    simp only [modify_wpfg_loop] at h
    cases hmf : modify_xaml_files (subdirectory w name) with
    | error e =>
      rw [hmf] at h
      cases h
    | ok mf =>
      rw [hmf] at h
      exact ih _ _ _ (mapInsert_keysSorted _ _ _ hs) h

theorem modify_wpfg_loop_subdir (names : List String) :
    ∀ w entries m, modify_wpfg_loop w entries names = Except.ok m →
      ∀ k, (k ∈ names ∨ ∃ d, lookupS entries k = some (DirectoryEntry.subdirectory d)) →
      ∃ d, lookupS m k = some (DirectoryEntry.subdirectory d) := by
  induction names with
  | nil =>
    intro w entries m h k hk
    cases h
    rcases hk with hk | hk
    · cases hk
    · exact hk
  | cons name more ih =>
    intro w entries m h k hk
    simp only [modify_wpfg_loop] at h
    cases hmf : modify_xaml_files (subdirectory w name) with
    | error e =>
      rw [hmf] at h
      cases h
    | ok mf =>
      rw [hmf] at h
      apply ih _ _ _ h
      by_cases hkn : k = name
      · subst hkn
        exact Or.inr ⟨mf, lookupS_mapInsert_same _ _ _⟩
      · rcases hk with hk | hk
        · rcases List.mem_cons.mp hk with h1 | h1
          · exact absurd h1 hkn
          · exact Or.inl h1
        · obtain ⟨d, hd⟩ := hk
          refine Or.inr ⟨d, ?_⟩
          rw [lookupS_mapInsert_other _ _ _ _ hkn]
          exact hd

theorem modify_xaml_files_sorted (dir : Option InputDir)
    (m : List (String × DirectoryEntry)) (h : modify_xaml_files dir = Except.ok m) :
    keysSorted m := by
  cases dir with
  | none => cases h
  | some d => exact modify_xaml_files_loop_sorted d.files [] m keysSorted_nil h

theorem modify_wpfg_sorted (w : Option InputDir) (m : List (String × DirectoryEntry))
    (h : modify_wpfg w = Except.ok m) : keysSorted m := by
  unfold modify_wpfg at h
  cases hmf : modify_xaml_files w with
  | error e =>
    rw [hmf] at h
    cases h
  | ok entries =>
    rw [hmf] at h
    exact modify_wpfg_loop_sorted wpfg_subdirectory_names w entries m
      (modify_xaml_files_sorted w entries hmf) h

theorem count_one_of_sorted_lookup {α : Type} (m : List (String × α)) (k : String) (v : α)
    (hs : keysSorted m) (h : lookupS m k = some v) : (m.map Prod.fst).count k = 1 := by
  have hmem : k ∈ m.map Prod.fst := List.mem_map_of_mem Prod.fst (lookupS_some_mem m k v h)
  exact List.count_eq_one_of_mem (keys_nodup_of_sorted m hs) hmem

/-- C2: the rewrite rule fires on an element iff its tag equals
`Rectangle` and its `x:Name` attribute equals `Fade`; when it fires, the
engine replaces the element's attribute map by `fade_brush_attributes`,
under which exactly `Canvas.Left`, `Canvas.Top`, `Fill`, `Height`,
`Width` hold the literals `-1`, `-1`, `Green`, `1`, `1` and every other
attribute (including `x:Name`) keeps its value; an element on which the
rule does not fire (and which no removal rule matches) keeps its
attribute list unchanged. -/
theorem rewrite_rule_exact (t : String) (a : List (String × String)) (ch rest : XmlForest) :
    (is_fade_brush_rectangle (XmlNode.element t a ch) = true ↔
      (t = "Rectangle" ∧ lookupA a "x:Name" = some "Fade"))
    ∧ (is_fade_brush_rectangle (XmlNode.element t a ch) = true →
        (patch_children (XmlForest.cons (XmlNode.element t a ch) rest)).1 =
          XmlForest.cons (XmlNode.element t (fade_brush_attributes a) (patch_children ch).1)
            (patch_children rest).1
        ∧ lookupA (fade_brush_attributes a) "Canvas.Left" = some "-1"
        ∧ lookupA (fade_brush_attributes a) "Canvas.Top" = some "-1"
        ∧ lookupA (fade_brush_attributes a) "Fill" = some "Green"
        ∧ lookupA (fade_brush_attributes a) "Height" = some "1"
        ∧ lookupA (fade_brush_attributes a) "Width" = some "1"
        ∧ ∀ k, k ≠ "Canvas.Left" → k ≠ "Canvas.Top" → k ≠ "Fill" → k ≠ "Height" →
            k ≠ "Width" → lookupA (fade_brush_attributes a) k = lookupA a k)
    ∧ (is_fade_brush_rectangle (XmlNode.element t a ch) = false → removal_name t = false →
        (patch_children (XmlForest.cons (XmlNode.element t a ch) rest)).1 =
          XmlForest.cons (XmlNode.element t a (patch_children ch).1)
            (patch_children rest).1) := by
  refine ⟨is_fade_iff t a ch, ?_, ?_⟩
  · intro hf
    have ht : t = "Rectangle" := ((is_fade_iff t a ch).mp hf).1
    have hrt : removal_name t = false := by rw [ht]; rfl
    refine ⟨?_, fade_lookup_left a, fade_lookup_top a, fade_lookup_fill a,
      fade_lookup_height a, fade_lookup_width a,
      fun k h1 h2 h3 h4 h5 => fade_lookup_other a k h1 h2 h3 h4 h5⟩
    rw [patch_children_cons_element t a ch rest hrt]
    simp [hf]
  · intro hf hrt
    rw [patch_children_cons_element t a ch rest hrt]
    simp [hf]

theorem rewrite_rule_exact_witness :
    is_fade_brush_rectangle
        (XmlNode.element "Rectangle" [("x:Name", "Fade"), ("Fill", "X")] XmlForest.nil) = true
    ∧ (patch_children
        (XmlForest.cons
          (XmlNode.element "Rectangle" [("x:Name", "Fade"), ("Fill", "X")] XmlForest.nil)
          XmlForest.nil)).1 =
      XmlForest.cons
        (XmlNode.element "Rectangle"
          (fade_brush_attributes [("x:Name", "Fade"), ("Fill", "X")]) XmlForest.nil)
        XmlForest.nil
    ∧ lookupA (fade_brush_attributes [("x:Name", "Fade"), ("Fill", "X")]) "Fill" = some "Green"
    ∧ lookupA (fade_brush_attributes [("x:Name", "Fade"), ("Fill", "X")]) "x:Name" =
        some "Fade" := by
  have H := (rewrite_rule_exact "Rectangle" [("x:Name", "Fade"), ("Fill", "X")]
    XmlForest.nil XmlForest.nil).2.1 (by decide)
  refine ⟨by decide, by simpa using H.1, H.2.2.2.1, ?_⟩
  have H2 := H.2.2.2.2.2.2 "x:Name" (by decide) (by decide) (by decide) (by decide) (by decide)
  exact H2.trans (by decide)

/-- C3: an element whose tag is the blur-effect or swipe-effect name is
replaced by a single comment placeholder that records the tag name, its
children are never visited, and two sibling matches yield two separate
placeholder comments. -/
theorem removal_rule_replaces (t1 t2 : String) (a1 a2 : List (String × String))
    (ch1 ch2 rest : XmlForest)
    (h1 : t1 = "local:Age2BlurEffect" ∨ t1 = "local:Age2SwipeEffect")
    (h2 : t2 = "local:Age2BlurEffect" ∨ t2 = "local:Age2SwipeEffect") :
    patch_children (XmlForest.cons (XmlNode.element t1 a1 ch1) rest) =
      (XmlForest.cons
        (XmlNode.comment ("The mod Reduced UI Animations replaced an element here: " ++ t1))
        (patch_children rest).1, PatchStatus.Changed)
    ∧ patch_children (XmlForest.cons (XmlNode.element t1 a1 ch1)
          (XmlForest.cons (XmlNode.element t2 a2 ch2) rest)) =
        (XmlForest.cons
          (XmlNode.comment ("The mod Reduced UI Animations replaced an element here: " ++ t1))
          (XmlForest.cons
            (XmlNode.comment ("The mod Reduced UI Animations replaced an element here: " ++ t2))
            (patch_children rest).1),
         PatchStatus.Changed) := by
  have hr1 : removal_name (nodeName (XmlNode.element t1 a1 ch1)) = true := by
    rcases h1 with h | h <;> simp [nodeName, removal_name, h]
  have hr2 : removal_name (nodeName (XmlNode.element t2 a2 ch2)) = true := by
    rcases h2 with h | h <;> simp [nodeName, removal_name, h]
  have hph : ∀ name : String, placeholderComment name =
      "The mod Reduced UI Animations replaced an element here: " ++ name := by
    intro name
    show "The mod " ++ GENERATED_MOD_NAME ++ " replaced an element here: " ++ name = _
    rw [GENERATED_MOD_NAME]
    have hpre : ("The mod " ++ "Reduced UI Animations" ++ " replaced an element here: " : String) =
        "The mod Reduced UI Animations replaced an element here: " := by decide
    rw [hpre]
  constructor
  · rw [patch_children_cons_removal _ _ hr1]
    simp only [nodeName, hph]
  · rw [patch_children_cons_removal _ _ hr1, patch_children_cons_removal _ _ hr2]
    simp only [nodeName, hph]

theorem removal_rule_replaces_witness :
    patch_children (XmlForest.cons (XmlNode.element "local:Age2SwipeEffect" [] XmlForest.nil)
        (XmlForest.cons (XmlNode.element "local:Age2SwipeEffect" [] XmlForest.nil)
          XmlForest.nil)) =
      (XmlForest.cons
        (XmlNode.comment
          ("The mod Reduced UI Animations replaced an element here: " ++ "local:Age2SwipeEffect"))
        (XmlForest.cons
          (XmlNode.comment
            ("The mod Reduced UI Animations replaced an element here: "
              ++ "local:Age2SwipeEffect"))
          XmlForest.nil),
       PatchStatus.Changed) := by
  have H := removal_rule_replaces "local:Age2SwipeEffect" "local:Age2SwipeEffect" [] []
    XmlForest.nil XmlForest.nil XmlForest.nil (Or.inr rfl) (Or.inr rfl)
  simpa using H.2

/-- C5: a placeholder comment never matches a removal rule — comment
children pass through the patch loop unchanged — and patched child lists
are fixed points of the patch, so a second run never removes or replaces
a placeholder produced by a first run. -/
theorem removal_idempotent :
    (∀ name, removal_name (nodeName (XmlNode.comment (placeholderComment name))) = false)
    ∧ (∀ s rest, patch_children (XmlForest.cons (XmlNode.comment s) rest) =
        (XmlForest.cons (XmlNode.comment s) (patch_children rest).1, (patch_children rest).2))
    ∧ (∀ l, (patch_children (patch_children l).1).1 = (patch_children l).1) :=
  ⟨fun _ => rfl, patch_children_cons_comment, patch_children_idem⟩

/-- C10: any parsed document containing a fade-brush rectangle is
reported Changed (the engine returns serialized output), even when the
five target attributes already hold the fixed literals — the rewrite
leaves `x:Name="Fade"` in place, so a patched document matches again. -/
theorem fade_rect_always_changed (s : String) (doc : XmlDocument)
    (hp : read_xml s = some doc) (hc : forest_has_fade_rect doc.children = true) :
    ∃ out, patch_xaml s = Except.ok (some out) := by
  have hm := fade_rect_implies_match doc.children hc
  have hst := patch_children_status doc.children
  rw [hm, if_pos rfl] at hst
  unfold patch_xaml
  rw [hp]
  show ∃ out,
    (match patch_children doc.children with
      | (_, PatchStatus.Unchanged) => Except.ok none
      | (patched, PatchStatus.Changed) => Except.ok (some (xml_to_string ⟨patched⟩))) =
      Except.ok (some out)
  cases hpc : patch_children doc.children with
  | mk patched st =>
    rw [hpc] at hst
    simp at hst
    subst hst
    exact ⟨xml_to_string ⟨patched⟩, rfl⟩

theorem fade_rect_always_changed_witness :
    read_xml c10Source = some c10Doc
    ∧ forest_has_fade_rect c10Doc.children = true
    ∧ (patch_children c10Doc.children).1 = c10Doc.children
    ∧ ∃ out, patch_xaml c10Source = Except.ok (some out) :=
  ⟨by decide, by decide, by decide,
    fade_rect_always_changed c10Source c10Doc (by decide) (by decide)⟩

/-- C4: for a file of a successfully processed directory (distinct file
names), if no rule matches its parsed document the engine reports
Unchanged (`patch_xaml` returns no content) and the file is absent from
the output tree; if some rule matches, the file is staged under its
original name with the patched, re-encoded content. -/
theorem unchanged_omitted_changed_staged (dir : InputDir) (m : List (String × DirectoryEntry))
    (hm : modify_xaml_files (some dir) = Except.ok m)
    (hnd : (dir.files.map FileEntry.name).Nodup)
    (f : FileEntry) (hf : f ∈ dir.files)
    (doc : XmlDocument)
    (hp : read_xml (decode_with_bom_removal f.content).1 = some doc) :
    (forestHasMatch doc.children = false →
      patch_xaml (decode_with_bom_removal f.content).1 = Except.ok none ∧
        lookupS m f.name = none)
    ∧ (forestHasMatch doc.children = true →
      ∃ out, patch_xaml (decode_with_bom_removal f.content).1 = Except.ok (some out) ∧
        lookupS m f.name = some (DirectoryEntry.file (utf8Encode out))) := by
  have hloop : modify_xaml_files_loop [] dir.files = Except.ok m := hm
  have hlk := modify_xaml_files_loop_lookup dir.files [] m hloop hnd f hf rfl
  have hst := patch_children_status doc.children
  constructor
  · intro hno
    rw [hno] at hst
    simp at hst
    have hpx : patch_xaml (decode_with_bom_removal f.content).1 = Except.ok none := by
      unfold patch_xaml
      rw [hp]
      show (match patch_children doc.children with
        | (_, PatchStatus.Unchanged) => Except.ok none
        | (patched, PatchStatus.Changed) => Except.ok (some (xml_to_string ⟨patched⟩))) =
          Except.ok none
      cases hpc : patch_children doc.children with
      | mk patched st =>
        rw [hpc] at hst
        simp at hst
        subst hst
        rfl
    refine ⟨hpx, ?_⟩
    have hmf : modify_xaml_file f.content = Except.ok none := by
      simp only [modify_xaml_file]
      rw [hpx]
      rfl
    rw [hmf] at hlk
    exact hlk
  · intro hyes
    rw [hyes, if_pos rfl] at hst
    cases hpc : patch_children doc.children with
    | mk patched st =>
      rw [hpc] at hst
      simp at hst
      subst hst
      have hpx : patch_xaml (decode_with_bom_removal f.content).1 =
          Except.ok (some (xml_to_string ⟨patched⟩)) := by
        unfold patch_xaml
        rw [hp]
        show (match patch_children doc.children with
          | (_, PatchStatus.Unchanged) => Except.ok none
          | (patched, PatchStatus.Changed) => Except.ok (some (xml_to_string ⟨patched⟩))) =
            Except.ok (some (xml_to_string ⟨patched⟩))
        rw [hpc]
      have hmf : modify_xaml_file f.content =
          Except.ok (some (utf8Encode (xml_to_string ⟨patched⟩))) := by
        simp only [modify_xaml_file]
        rw [hpx]
        rfl
      rw [hmf] at hlk
      exact ⟨xml_to_string ⟨patched⟩, hpx, hlk⟩

theorem unchanged_omitted_changed_staged_witness :
    (patch_xaml (decode_with_bom_removal exBytesUnchanged).1 = Except.ok none ∧
      lookupS exOutMap "a.xaml" = none) ∧
    (∃ out, patch_xaml (decode_with_bom_removal exBytesChanged).1 = Except.ok (some out) ∧
      lookupS exOutMap "b.xaml" = some (DirectoryEntry.file (utf8Encode out))) := by
  have H1 := unchanged_omitted_changed_staged exDir exOutMap rfl (by decide)
    ⟨"a.xaml", exBytesUnchanged⟩ (by decide) exDocUnchanged (by decide)
  have H2 := unchanged_omitted_changed_staged exDir exOutMap rfl (by decide)
    ⟨"b.xaml", exBytesChanged⟩ (by decide) exDocChanged (by decide)
  exact ⟨H1.1 (by decide), H2.2 (by decide)⟩

/-- C8: every successful run's output tree carries `info.json` at its
root, whose content is the four-key JSON object (`Author`, `CacheStatus`,
`Description`, `Title`) serialized in sorted key order with no
whitespace, identically for every input. -/
theorem info_json_fixed (game : InputDir) (d : List (String × DirectoryEntry))
    (h : generate_mod game = Except.ok d) :
    lookupS d "info.json" = some (DirectoryEntry.file info_json_bytes)
    ∧ json_object_to_string create_info_json =
        ("\x7b\"Author\":\"Flauschfuchs\",\"CacheStatus\":0,\"Description\":\"Recreation of"
          ++ " <b>0xDB No UI Transitions 1.4</b> by Flauschfuchs so that it works in May"
          ++ " 2024.\",\"Title\":\"Reduced UI Animations\"\x7d")
    ∧ (create_info_json.foldl (fun acc p => mapInsert acc p.1 p.2) []).map Prod.fst =
        ["Author", "CacheStatus", "Description", "Title"] := by
  refine ⟨?_, by decide, by decide⟩
  simp only [generate_mod] at h
  cases hw : modify_wpfg
      (subdirectory (subdirectory (subdirectory (some game) "resources") "_common") "wpfg") with
  | error e =>
    rw [hw] at h
    cases h
  | ok modified =>
    rw [hw] at h
    cases h
    rw [lookupS_mapInsert_other _ _ _ _ (by decide)]
    exact lookupS_mapInsert_same _ _ _

theorem info_json_fixed_witness :
    generate_mod exGame = Except.ok exGameTree ∧
    lookupS exGameTree "info.json" = some (DirectoryEntry.file info_json_bytes) :=
  ⟨rfl, (info_json_fixed exGame exGameTree rfl).1⟩

/-- C9: every successful `modify_wpfg` run produces a tree containing
subdirectory nodes named `dialog`, `panel`, `screen` and `tab`, each
present exactly once — even when no file below them changed (the node is
then present but empty), so the tree is not limited to changed
entries. -/
theorem wpfg_fixed_subdirectories (w : Option InputDir) (m : List (String × DirectoryEntry))
    (h : modify_wpfg w = Except.ok m) :
    ∀ name, name ∈ wpfg_subdirectory_names →
      (∃ d, lookupS m name = some (DirectoryEntry.subdirectory d)) ∧
        (m.map Prod.fst).count name = 1 := by
  intro name hname
  have hs := modify_wpfg_sorted w m h
  unfold modify_wpfg at h
  cases hmf : modify_xaml_files w with
  | error e =>
    rw [hmf] at h
    cases h
  | ok entries =>
    rw [hmf] at h
    obtain ⟨d, hd⟩ :=
      modify_wpfg_loop_subdir wpfg_subdirectory_names w entries m h name (Or.inl hname)
    exact ⟨⟨d, hd⟩, count_one_of_sorted_lookup m name _ hs hd⟩

theorem wpfg_fixed_subdirectories_witness :
    modify_wpfg (some emptyWpfgInput) = Except.ok exEmptyWpfgResult ∧
    (∃ d, lookupS exEmptyWpfgResult "dialog" = some (DirectoryEntry.subdirectory d)) ∧
    (exEmptyWpfgResult.map Prod.fst).count "dialog" = 1 ∧
    lookupS exEmptyWpfgResult "dialog" = some (DirectoryEntry.subdirectory []) := by
  have H := wpfg_fixed_subdirectories (some emptyWpfgInput) exEmptyWpfgResult rfl "dialog"
    (by decide)
  exact ⟨rfl, H.1, H.2, rfl⟩

theorem mapInsert_length_of_mem {α : Type} (m : List (String × α)) (k : String) (v v0 : α)
    (hs : keysSorted m) (h : lookupS m k = some v0) :
    (mapInsert m k v).length = m.length := by
  induction m with
  | nil => simp [lookupS] at h
  | cons q rest ih =>
    obtain ⟨k0, v0'⟩ := q
    rw [keysSorted, List.pairwise_cons] at hs
    obtain ⟨hall, hrest⟩ := hs
    by_cases h1 : strLt k k0
    · exfalso
      by_cases h0 : k0 = k
      · subst h0
        rw [strLt_irrefl] at h1
        cases h1
      · simp only [lookupS] at h
        rw [if_neg h0] at h
        have hmem := lookupS_some_mem rest k v0 h
        have hlt := hall (k, v0) hmem
        have h2 := strLt_trans k k0 k h1 hlt
        rw [strLt_irrefl] at h2
        cases h2
    · by_cases h2 : k = k0
      · subst h2
        simp only [mapInsert]
        rw [if_neg h1, if_pos trivial]
        simp
      · simp only [mapInsert]
        rw [if_neg h1, if_neg h2]
        simp only [List.length_cons]
        have hh : lookupS rest k = some v0 := by
          simp only [lookupS] at h
          rw [if_neg (fun he => h2 he.symm)] at h
          exact h
        rw [ih hrest hh]

/-- C7 counterexample: a root-level wpfg file named `dialog` whose
content is patched (it is staged into the per-directory map), yet
`modify_wpfg` succeeds without any fatal contract violation and its
output maps `dialog` to the (empty) subdirectory node: the later
`BTreeMap::insert` of the subdirectory silently replaced the staged
patched file. -/
theorem vdt_silent_overwrite_counterexample :
    modify_xaml_file c7FileBytes = Except.ok (some c7PatchedBytes)
    ∧ modify_xaml_files (some c7Input) =
        Except.ok [("dialog", DirectoryEntry.file c7PatchedBytes)]
    ∧ modify_wpfg (some c7Input) = Except.ok c7Result
    ∧ lookupS c7Result "dialog" = some (DirectoryEntry.subdirectory [])
    ∧ lookupS c7Result "dialog" ≠ some (DirectoryEntry.file c7PatchedBytes) := by
  refine ⟨rfl, rfl, rfl, rfl, ?_⟩
  intro h
  rw [show lookupS c7Result "dialog" = some (DirectoryEntry.subdirectory []) from rfl] at h
  injection h with h1
  cases h1

/-- C7 amended: Virtual Directory Tree insertion at an existing name is
the silent-replacement semantics of `BTreeMap::insert`: the lookup
afterwards yields the new value, the map keeps its size, and no failure
occurs; consequently a patched root-level file sharing a name with a
scanned subdirectory is silently shadowed. -/
theorem insert_replaces_silently (m : List (String × DirectoryEntry)) (k : String)
    (v v0 : DirectoryEntry) (hs : keysSorted m) (h : lookupS m k = some v0) :
    lookupS (mapInsert m k v) k = some v ∧ (mapInsert m k v).length = m.length :=
  ⟨lookupS_mapInsert_same m k v, mapInsert_length_of_mem m k v v0 hs h⟩

theorem insert_replaces_silently_witness :
    lookupS [("dialog", DirectoryEntry.file c7PatchedBytes)] "dialog" =
      some (DirectoryEntry.file c7PatchedBytes)
    ∧ lookupS
        (mapInsert [("dialog", DirectoryEntry.file c7PatchedBytes)] "dialog"
          (DirectoryEntry.subdirectory []))
        "dialog" = some (DirectoryEntry.subdirectory [])
    ∧ (mapInsert [("dialog", DirectoryEntry.file c7PatchedBytes)] "dialog"
        (DirectoryEntry.subdirectory [])).length =
        [("dialog", DirectoryEntry.file c7PatchedBytes)].length := by
  have H := insert_replaces_silently [("dialog", DirectoryEntry.file c7PatchedBytes)] "dialog"
    (DirectoryEntry.subdirectory []) (DirectoryEntry.file c7PatchedBytes)
    (by simp [keysSorted]) rfl
  exact ⟨rfl, H.1, H.2⟩

/-- C6 counterexample: a file that is not valid UTF-8 (the decoder's
malformed-input flag is set) for which the run does not fail: the 0xFF
byte is replaced by U+FFFD, the replaced text parses, no rule matches,
and the engine just skips the file. -/
theorem utf8_invalid_not_fatal_counterexample :
    (decode_with_bom_removal c6Bytes).2 = true
    ∧ modify_xaml_file c6Bytes = Except.ok none
    ∧ modify_xaml_file c6Bytes ≠ Except.error ()
    ∧ modify_xaml_files (some (InputDir.mk [⟨"x.xaml", c6Bytes⟩] [])) = Except.ok [] := by
  refine ⟨by decide, rfl, ?_, rfl⟩
  intro h
  rw [show modify_xaml_file c6Bytes = Except.ok none from rfl] at h
  cases h

/-- C6 amended: the decode step never aborts the run — decoding replaces
malformed sequences with U+FFFD and its error flag is dropped by
`modify_xaml_file`; a file aborts the run exactly when the
replacement-decoded text fails XML parsing, for valid and invalid UTF-8
alike. -/
theorem patch_xaml_of_read_none (s : String) (h : read_xml s = none) :
    patch_xaml s = Except.error () := by
  unfold patch_xaml
  rw [h]

theorem patch_xaml_of_read_some (s : String) (doc : XmlDocument)
    (h : read_xml s = some doc) :
    patch_xaml s =
      (match patch_children doc.children with
        | (_, PatchStatus.Unchanged) => Except.ok none
        | (patched, PatchStatus.Changed) =>
            Except.ok (some (xml_to_string ⟨patched⟩))) := by
  unfold patch_xaml
  rw [h]

theorem decode_never_fatal (bytes : List Nat) :
    modify_xaml_file bytes = Except.error () ↔
      read_xml (decode_with_bom_removal bytes).1 = none := by
  cases hr : read_xml (decode_with_bom_removal bytes).1 with
  | none =>
    constructor
    · intro _
      rfl
    · intro _
      simp only [modify_xaml_file]
      rw [patch_xaml_of_read_none _ hr]
  | some doc =>
    constructor
    · intro h
      exfalso
      have hp := patch_xaml_of_read_some _ doc hr
      simp only [modify_xaml_file] at h
      rw [hp] at h
      cases hpc : patch_children doc.children with
      | mk patched st =>
        rw [hpc] at h
        cases st <;> simp at h
    · intro h
      cases h

theorem decode_never_fatal_witness :
    modify_xaml_file (utf8Encode "not xml") = Except.error () :=
  (decode_never_fatal (utf8Encode "not xml")).mpr (by decide)

/-- C1: the structural backend's serialization depends on the storage
order of the attribute map: two storage orders of the very same
attributes — `xml_dom` keeps them in a `HashMap` whose iteration order
the serializer does not normalize (the TODO on `xml_to_string` admits
this) — yield different output bytes for the same document. -/
theorem xml_to_string_order_dependent :
    List.Perm [("Height", "1"), ("Width", "1")] [("Width", "1"), ("Height", "1")]
    ∧ (∀ k, lookupA [("Height", "1"), ("Width", "1")] k =
        lookupA [("Width", "1"), ("Height", "1")] k)
    ∧ xml_to_string c1Doc1 ≠ xml_to_string c1Doc2 := by
  refine ⟨List.Perm.swap _ _ _, ?_, by decide⟩
  intro k
  simp only [lookupA]
  by_cases h1 : "Height" = k <;> by_cases h2 : "Width" = k <;> simp [h1, h2]
